import Mathlib

/-!
Shallow embedding of `src/main.rs` (a cycle-safe formatter for a recursive
value type with shared mutable cells), together with proofs about it.

The Rust type is
  enum Value { Int(i64), Rc(Rc<RefCell<Option<Self>>>), List(Vec<Self>) }.
We model the heap of `Rc<RefCell<Option<Value>>>` allocations as a `Store`:
a list of optional values indexed by cell id, so `Value.rc a` is a handle to
cell `a`.  `resolve` mutates the store; `visit` reads it.

The Rust formatter keys its visited set on `x as *const Value`: the address
of the particular `Value` struct being visited (not the address of the `Rc`
allocation it may wrap).  During one `format` call those addresses are in
bijection with traversal locations: the root value passed to `format`, the
value stored inside cell `a` (one stable address per cell, shared by every
handle to it), and element `i` of the vector owned by the list at a given
location.  `Loc` is exactly that bijection.
-/

namespace CycleDemo

/-- The recursive value type, from `enum Value` in the source.
`rc a` is a handle to cell `a` of the store (`Rc(Rc<RefCell<Option<Self>>>)`
in the source); cloning a handle copies `a`, so clones share storage. -/
inductive Value where
  | int (n : Int)
  | rc (a : Nat)
  | list (xs : List Value)

/-- The heap of `Rc<RefCell<Option<Value>>>` allocations: cell `a` holds
`σ[a]`, which is `none` while the cell is uninitialized. -/
abbrev Store := List (Option Value)

/-- Addresses of `Value` structs as they occur during one `format` call:
the root argument, the value stored inside cell `a` (stable across all
handles to cell `a`), and element `i` of the vector of the list located at
`p`.  This mirrors `x as *const Value` in `ValueFormatter::visit`. -/
inductive Loc where
  | root
  | inCell (a : Nat)
  | elem (p : Loc) (i : Nat)
deriving DecidableEq

/-- The pending work of the recursive formatter: visiting one value at its
location, or the source's `for x in &xs[1..]` loop over the remaining
elements (starting at index `i`) of the list located at `p`, each preceded
by a separator chunk. -/
inductive Task where
  | visit (x : Value) (loc : Loc)
  | elems (xs : List Value) (p : Loc) (i : Nat)

/-- The formatter state from `struct ValueFormatter { visited, chunks }`,
extended with the store so that the heap is explicitly threaded through the
traversal (the Rust code reaches it through the `Rc` handles). -/
structure ValueFormatter where
  store : Store
  visited : List Loc
  chunks : List String

/-- `ValueFormatter::add`: push one chunk onto the output buffer. -/
def add (f : ValueFormatter) (s : String) : ValueFormatter :=
  { f with chunks := f.chunks ++ [s] }

/-- `ValueFormatter::string`: join the chunks into the final output. -/
def string (f : ValueFormatter) : String :=
  String.join f.chunks

mutual

/-- Structural size of a value, used only to compute a sufficient amount
of fuel for `visit`. -/
def sizeV : Value → Nat
  | Value.int _ => 1
  | Value.rc _ => 1
  | Value.list xs => 1 + sizeVs xs

/-- Structural size of a list of values. -/
def sizeVs : List Value → Nat
  | [] => 1
  | x :: rest => 1 + sizeV x + sizeVs rest

end

/-- Structural size used only to compute a sufficient amount of fuel. -/
def wOpt : Option Value → Nat
  | none => 0
  | some v => sizeV v

/-- Total weight of the store: an upper bound on the work hiding in cells. -/
def wAll (σ : Store) : Nat :=
  (σ.map fun o => 1 + wOpt o).sum

/-- `ValueFormatter::visit`, the main recursive function of the source,
with explicit fuel (the recursion is not structural in the presence of
cycles; `visit_total` below proves the fuel chosen by `format` suffices).
The branches mirror the source exactly: if the current address is in the
visited set, push the back-reference token and stop; otherwise insert the
address and dispatch on the variant (`Int` pushes the decimal text, `Rc`
pushes `uninit` or recurses into the cell's contents at the cell's single
interior address, `List` pushes brackets and separators around its
elements).  A handle to a cell missing from the store is unrepresentable in
the source (every `Rc` points to a live allocation), so that case is `none`. -/
def visit : Nat → ValueFormatter → Task → Option ValueFormatter
  | 0, _, _ => none
  | fuel+1, f, Task.visit x loc =>
    if loc ∈ f.visited then
      some (add f ("*"))
    else
      let f1 := { f with visited := loc :: f.visited }
      match x with
      | Value.int n => some (add f1 (toString n))
      | Value.rc a =>
        match f1.store[a]? with
        | none => none
        | some none => some (add f1 ("uninit"))
        | some (some v) => visit fuel f1 (Task.visit v (Loc.inCell a))
      | Value.list xs =>
        let f2 := add f1 ("[")
        match xs with
        | [] => some (add f2 ("]"))
        | x0 :: rest =>
          (visit fuel f2 (Task.visit x0 (Loc.elem loc 0))).bind fun f3 =>
          (visit fuel f3 (Task.elems rest loc 1)).bind fun f4 =>
          some (add f4 ("]"))
  | fuel+1, f, Task.elems xs p i =>
    match xs with
    | [] => some f
    | x :: rest =>
      (visit fuel (add f (", ")) (Task.visit x (Loc.elem p i))).bind fun f2 =>
      visit fuel f2 (Task.elems rest p (i+1))

/-- Fuel that `format` hands to `visit`; proved sufficient in `visit_total`. -/
def fmtFuel (σ : Store) (x : Value) : Nat :=
  1 + sizeV x + wAll σ

/-- `impl Debug for Value` / `format(root)`: run `visit` on a fresh
formatter (empty visited set, empty buffer) against the root value at the
root address, and return the joined string together with the store the
traversal finished with (the source reaches the heap through the graph; we
thread it so that read-only-ness is a theorem, not an assumption). -/
def format (σ : Store) (x : Value) : Option (String × Store) :=
  (visit (fmtFuel σ x) ⟨σ, [], []⟩ (Task.visit x Loc.root)).map fun f =>
    (string f, f.store)

/-- `Value::resolve`: store the value as the contents of the cell the
handle points to; on a non-`Rc` value the source panics
(`"Attempt to resolve non-rc value"`), modelled as `none`. -/
def resolve (x : Value) (v : Value) (σ : Store) : Option Store :=
  match x with
  | Value.rc a => some (σ.set a (some v))
  | _ => none

/-- A value is closed for a store of length `n` when every handle in it
points below `n`; every graph constructible in the source is closed, since
a Rust `Rc` always points at a live allocation. -/
inductive ClosedVal (n : Nat) : Value → Prop where
  | int (k : Int) : ClosedVal n (Value.int k)
  | rc (a : Nat) : a < n → ClosedVal n (Value.rc a)
  | list (xs : List Value) : (∀ x ∈ xs, ClosedVal n x) → ClosedVal n (Value.list xs)

/-- Every cell's contents is closed for the store. -/
def ClosedStore (σ : Store) : Prop :=
  ∀ (a : Nat) (v : Value), σ[a]? = some (some v) → ClosedVal σ.length v

/-- Closedness of a task's pending values. -/
def TaskClosed (n : Nat) : Task → Prop
  | Task.visit x _ => ClosedVal n x
  | Task.elems xs _ _ => ∀ x ∈ xs, ClosedVal n x

/-- `Reaches σ x a`: starting from value `x`, the traversal can reach cell
`a` (directly as a handle, through the contents of a cell, or through a
list element).  Used to state the frame property of `resolve`. -/
inductive Reaches (σ : Store) : Value → Nat → Prop where
  | rcSelf (a : Nat) : Reaches σ (Value.rc a) a
  | rcThrough (a b : Nat) (v : Value) :
      σ[a]? = some (some v) → Reaches σ v b → Reaches σ (Value.rc a) b
  | listElem (xs : List Value) (x : Value) (b : Nat) :
      x ∈ xs → Reaches σ x b → Reaches σ (Value.list xs) b

/-- Cells a task can reach. -/
def TReach (σ : Store) : Task → Nat → Prop
  | Task.visit x _ => fun b => Reaches σ x b
  | Task.elems xs _ _ => fun b => ∃ x ∈ xs, Reaches σ x b

/-- Weight of the cells not yet entered: the part of the store the
traversal can still expand.  Drives the fuel-sufficiency argument. -/
def unvisitedWeight (σ : Store) (V : List Loc) : Nat :=
  Finset.sum (Finset.range σ.length) fun i =>
    if Loc.inCell i ∈ V then 0 else 1 + wOpt (σ[i]?.getD none)

/-- Fuel needed for a task, as a function of the state's visited set. -/
def taskCost (σ : Store) (V : List Loc) : Task → Nat
  | Task.visit x loc => 1 + sizeV x + unvisitedWeight σ (loc :: V)
  | Task.elems xs _ _ => sizeVs xs + unvisitedWeight σ V

/-- The observable part of a formatter state apart from the store. -/
def stView (f : ValueFormatter) : List Loc × List String :=
  (f.visited, f.chunks)

theorem sizeV_pos (v : Value) : 1 ≤ sizeV v := by
  cases v <;> simp [sizeV]

theorem sizeVs_pos (xs : List Value) : 1 ≤ sizeVs xs := by
  cases xs with
  | nil => simp [sizeVs]
  | cons x rest => simp only [sizeVs]; omega

theorem wAll_cons (o : Option Value) (σ : Store) :
    wAll (o :: σ) = (1 + wOpt o) + wAll σ := by
  simp [wAll]

theorem uw_anti (σ : Store) {V W : List Loc} (h : V ⊆ W) :
    unvisitedWeight σ W ≤ unvisitedWeight σ V := by
  unfold unvisitedWeight
  refine Finset.sum_le_sum ?_
  intro i _
  by_cases hv : Loc.inCell i ∈ V
  · have hw : Loc.inCell i ∈ W := h hv
    simp [hv, hw]
  · by_cases hw : Loc.inCell i ∈ W
    · simp [hw]
    · simp [hv, hw]

theorem uw_nil (σ : Store) : unvisitedWeight σ [] = wAll σ := by
  induction σ with
  | nil => simp [unvisitedWeight, wAll]
  | cons o σ ih =>
    unfold unvisitedWeight at ih ⊢
    rw [wAll_cons]
    simp only [List.length_cons, List.not_mem_nil, if_false]
    rw [Finset.sum_range_succ']
    simp only [List.getElem?_cons_succ, List.getElem?_cons_zero]
    simp only [List.not_mem_nil, if_false] at ih
    rw [ih]
    simp [Option.getD]
    omega

theorem uw_le_wAll (σ : Store) (V : List Loc) : unvisitedWeight σ V ≤ wAll σ := by
  rw [← uw_nil σ]
  exact uw_anti σ (List.nil_subset V)

theorem uw_split (σ : Store) (V : List Loc) (a : Nat) (ha : a < σ.length)
    (hnv : Loc.inCell a ∉ V) :
    unvisitedWeight σ V =
      (1 + wOpt (σ[a]?.getD none)) + unvisitedWeight σ (Loc.inCell a :: V) := by
  have hmem : a ∈ Finset.range σ.length := Finset.mem_range.mpr ha
  unfold unvisitedWeight
  rw [← Finset.sum_erase_add (Finset.range σ.length) _ hmem,
      ← Finset.sum_erase_add (Finset.range σ.length) _ hmem]
  have h1 : ∀ i ∈ (Finset.range σ.length).erase a,
      (if Loc.inCell i ∈ Loc.inCell a :: V then 0 else 1 + wOpt (σ[i]?.getD none)) =
      (if Loc.inCell i ∈ V then 0 else 1 + wOpt (σ[i]?.getD none)) := by
    intro i hi
    have hia : i ≠ a := (Finset.mem_erase.mp hi).1
    have hiff : (Loc.inCell i ∈ Loc.inCell a :: V) ↔ (Loc.inCell i ∈ V) := by
      simp [List.mem_cons, Loc.inCell.injEq, hia]
    rw [if_congr hiff rfl rfl]
  rw [Finset.sum_congr rfl h1]
  have h2 : (if Loc.inCell a ∈ V then 0 else 1 + wOpt (σ[a]?.getD none)) =
      1 + wOpt (σ[a]?.getD none) := if_neg hnv
  have h3 : (if Loc.inCell a ∈ Loc.inCell a :: V then (0:Nat)
      else 1 + wOpt (σ[a]?.getD none)) = 0 := if_pos (List.mem_cons_self _ _)
  omega

theorem add_store (f : ValueFormatter) (s : String) : (add f s).store = f.store := rfl

theorem add_visited (f : ValueFormatter) (s : String) : (add f s).visited = f.visited := rfl

theorem visit_eq_int (fuel : Nat) (f : ValueFormatter) (n : Int) (loc : Loc) :
    visit (fuel+1) f (Task.visit (Value.int n) loc) =
      if loc ∈ f.visited then some (add f ("*"))
      else some (add { f with visited := loc :: f.visited } (toString n)) := rfl

theorem visit_eq_rc (fuel : Nat) (f : ValueFormatter) (a : Nat) (loc : Loc) :
    visit (fuel+1) f (Task.visit (Value.rc a) loc) =
      if loc ∈ f.visited then some (add f ("*"))
      else
        match f.store[a]? with
        | none => none
        | some none => some (add { f with visited := loc :: f.visited } ("uninit"))
        | some (some v) =>
          visit fuel { f with visited := loc :: f.visited }
            (Task.visit v (Loc.inCell a)) := rfl

theorem visit_eq_list_nil (fuel : Nat) (f : ValueFormatter) (loc : Loc) :
    visit (fuel+1) f (Task.visit (Value.list []) loc) =
      if loc ∈ f.visited then some (add f ("*"))
      else some (add (add { f with visited := loc :: f.visited } ("[")) ("]")) := rfl

theorem visit_eq_list_cons (fuel : Nat) (f : ValueFormatter) (x0 : Value)
    (rest : List Value) (loc : Loc) :
    visit (fuel+1) f (Task.visit (Value.list (x0 :: rest)) loc) =
      if loc ∈ f.visited then some (add f ("*"))
      else
        (visit fuel (add { f with visited := loc :: f.visited } ("["))
            (Task.visit x0 (Loc.elem loc 0))).bind fun f3 =>
        (visit fuel f3 (Task.elems rest loc 1)).bind fun f4 =>
        some (add f4 ("]")) := rfl

theorem visit_eq_elems_nil (fuel : Nat) (f : ValueFormatter) (p : Loc) (i : Nat) :
    visit (fuel+1) f (Task.elems [] p i) = some f := rfl

theorem visit_eq_elems_cons (fuel : Nat) (f : ValueFormatter) (x : Value)
    (rest : List Value) (p : Loc) (i : Nat) :
    visit (fuel+1) f (Task.elems (x :: rest) p i) =
      (visit fuel (add f (", ")) (Task.visit x (Loc.elem p i))).bind fun f2 =>
      visit fuel f2 (Task.elems rest p (i+1)) := rfl

theorem visit_mem (fuel : Nat) (f : ValueFormatter) (x : Value) (loc : Loc)
    (hf : 0 < fuel) (hm : loc ∈ f.visited) :
    visit fuel f (Task.visit x loc) = some (add f ("*")) := by
  cases fuel with
  | zero => omega
  | succ fuel => simp [visit, hm]

theorem visit_store_eq (fuel : Nat) :
    ∀ (f : ValueFormatter) (t : Task) (g : ValueFormatter),
      visit fuel f t = some g → g.store = f.store := by
  induction fuel with
  | zero => intro f t g h; simp [visit] at h
  | succ fuel ih =>
    intro f t g h
    cases t with
    | visit x loc =>
      cases x with
      | int n =>
        simp only [visit] at h
        split at h
        · cases h; rfl
        · cases h; rfl
      | rc a =>
        simp only [visit] at h
        split at h
        · cases h; rfl
        · split at h
          · exact absurd h (by simp)
          · cases h; rfl
          · have s := ih _ _ _ h
            exact s
      | list xs =>
        cases xs with
        | nil =>
          simp only [visit] at h
          split at h
          · cases h; rfl
          · cases h; rfl
        | cons x0 rest =>
          simp only [visit] at h
          split at h
          · cases h; rfl
          · rw [Option.bind_eq_some] at h
            obtain ⟨f3, e3, h⟩ := h
            rw [Option.bind_eq_some] at h
            obtain ⟨f4, e4, h⟩ := h
            cases h
            have s4 := ih _ _ _ e4
            have s3 := ih _ _ _ e3
            simp only [add_store] at s3 s4 ⊢
            rw [s4, s3]
    | elems xs p i =>
      cases xs with
      | nil => simp only [visit] at h; cases h; rfl
      | cons x rest =>
        simp only [visit] at h
        rw [Option.bind_eq_some] at h
        obtain ⟨f2, e2, h⟩ := h
        have s1 := ih _ _ _ e2
        have s2 := ih _ _ _ h
        simp only [add_store] at s1 s2 ⊢
        rw [s2, s1]

theorem visit_visited_sub (fuel : Nat) :
    ∀ (f : ValueFormatter) (t : Task) (g : ValueFormatter),
      visit fuel f t = some g → f.visited ⊆ g.visited := by
  induction fuel with
  | zero => intro f t g h; simp [visit] at h
  | succ fuel ih =>
    intro f t g h
    cases t with
    | visit x loc =>
      have hsub : f.visited ⊆ loc :: f.visited := fun l hl => List.mem_cons_of_mem _ hl
      cases x with
      | int n =>
        simp only [visit] at h
        split at h
        · cases h; exact fun l hl => hl
        · cases h; exact hsub
      | rc a =>
        simp only [visit] at h
        split at h
        · cases h; exact fun l hl => hl
        · split at h
          · exact absurd h (by simp)
          · cases h; exact hsub
          · have s := ih _ _ _ h
            exact hsub.trans s
      | list xs =>
        cases xs with
        | nil =>
          simp only [visit] at h
          split at h
          · cases h; exact fun l hl => hl
          · cases h; exact hsub
        | cons x0 rest =>
          simp only [visit] at h
          split at h
          · cases h; exact fun l hl => hl
          · rw [Option.bind_eq_some] at h
            obtain ⟨f3, e3, h⟩ := h
            rw [Option.bind_eq_some] at h
            obtain ⟨f4, e4, h⟩ := h
            cases h
            have s3 := ih _ _ _ e3
            have s4 := ih _ _ _ e4
            simp only [add_visited] at s3 s4 ⊢
            exact hsub.trans (s3.trans s4)
    | elems xs p i =>
      cases xs with
      | nil => simp only [visit] at h; cases h; exact fun l hl => hl
      | cons x rest =>
        simp only [visit] at h
        rw [Option.bind_eq_some] at h
        obtain ⟨f2, e2, h⟩ := h
        have s1 := ih _ _ _ e2
        have s2 := ih _ _ _ h
        simp only [add_visited] at s1 s2
        exact s1.trans s2

theorem visit_fuel_succ (fuel : Nat) :
    ∀ (f : ValueFormatter) (t : Task) (g : ValueFormatter),
      visit fuel f t = some g → visit (fuel+1) f t = some g := by
  induction fuel with
  | zero => intro f t g h; simp [visit] at h
  | succ fuel ih =>
    intro f t g h
    cases t with
    | visit x loc =>
      cases x with
      | int n =>
        rw [visit_eq_int] at h ⊢
        exact h
      | rc a =>
        rw [visit_eq_rc] at h ⊢
        split at h
        · rename_i hm
          rw [if_pos hm]
          exact h
        · rename_i hm
          rw [if_neg hm]
          split at h
          · exact absurd h (by simp)
          · exact h
          · exact ih _ _ _ h
      | list xs =>
        cases xs with
        | nil =>
          rw [visit_eq_list_nil] at h ⊢
          exact h
        | cons x0 rest =>
          rw [visit_eq_list_cons] at h ⊢
          split at h
          · rename_i hm
            rw [if_pos hm]
            exact h
          · rename_i hm
            rw [if_neg hm]
            rw [Option.bind_eq_some] at h
            obtain ⟨f3, e3, h⟩ := h
            rw [Option.bind_eq_some] at h
            obtain ⟨f4, e4, h⟩ := h
            rw [ih _ _ _ e3]
            simp only [Option.some_bind]
            rw [ih _ _ _ e4]
            simp only [Option.some_bind]
            exact h
    | elems xs p i =>
      cases xs with
      | nil =>
        rw [visit_eq_elems_nil] at h ⊢
        exact h
      | cons x rest =>
        rw [visit_eq_elems_cons] at h ⊢
        rw [Option.bind_eq_some] at h
        obtain ⟨f2, e2, h⟩ := h
        rw [ih _ _ _ e2]
        simp only [Option.some_bind]
        exact ih _ _ _ h

theorem visit_fuel_le (fuel fuel2 : Nat) (hle : fuel ≤ fuel2)
    (f : ValueFormatter) (t : Task) (g : ValueFormatter)
    (h : visit fuel f t = some g) : visit fuel2 f t = some g := by
  induction fuel2 with
  | zero =>
    have : fuel = 0 := Nat.le_zero.mp hle
    subst this
    exact h
  | succ n ih =>
    rcases Nat.lt_or_ge fuel (n+1) with hlt | hge
    · exact visit_fuel_succ n _ _ _ (ih (Nat.lt_succ_iff.mp hlt))
    · have : fuel = n+1 := Nat.le_antisymm hle hge
      subst this
      exact h

theorem visit_total (fuel : Nat) :
    ∀ (f : ValueFormatter) (t : Task),
      ClosedStore f.store → TaskClosed f.store.length t →
      taskCost f.store f.visited t ≤ fuel →
      ∃ g, visit fuel f t = some g := by
  induction fuel with
  | zero =>
    intro f t hcs hct hcost
    exfalso
    cases t with
    | visit x loc =>
      simp [taskCost] at hcost
    | elems xs p i =>
      have hp := sizeVs_pos xs
      simp [taskCost] at hcost
      omega
  | succ fuel ih =>
    intro f t hcs hct hcost
    cases t with
    | visit x loc =>
      by_cases hm : loc ∈ f.visited
      · exact ⟨_, visit_mem _ _ _ _ (Nat.succ_pos _) hm⟩
      · cases x with
        | int n =>
          exact ⟨add { f with visited := loc :: f.visited } (toString n),
            by rw [visit_eq_int, if_neg hm]⟩
        | rc a =>
          have ha : a < f.store.length := by
            cases hct with
            | rc a ha => exact ha
          have ho : f.store[a]? = some f.store[a] := List.getElem?_eq_getElem ha
          cases hval : f.store[a] with
          | none =>
            rw [hval] at ho
            exact ⟨add { f with visited := loc :: f.visited } ("uninit"),
              by rw [visit_eq_rc, if_neg hm, ho]⟩
          | some v =>
            rw [hval] at ho
            by_cases hm2 : Loc.inCell a ∈ loc :: f.visited
            · have hfpos : 0 < fuel := by
                simp [taskCost, sizeV] at hcost
                omega
              have hv := visit_mem fuel { f with visited := loc :: f.visited } v
                (Loc.inCell a) hfpos hm2
              refine ⟨add { f with visited := loc :: f.visited } ("*"), ?_⟩
              rw [visit_eq_rc, if_neg hm, ho]
              exact hv
            · have hsplit := uw_split f.store (loc :: f.visited) a ha hm2
              rw [ho] at hsplit
              simp only [Option.getD_some, wOpt] at hsplit
              have hcost2 :
                  taskCost f.store (loc :: f.visited)
                    (Task.visit v (Loc.inCell a)) ≤ fuel := by
                simp only [taskCost, sizeV] at hcost ⊢
                omega
              have hctv : TaskClosed f.store.length (Task.visit v (Loc.inCell a)) :=
                hcs a v ho
              obtain ⟨g, hg⟩ := ih { f with visited := loc :: f.visited }
                (Task.visit v (Loc.inCell a)) hcs hctv hcost2
              refine ⟨g, ?_⟩
              rw [visit_eq_rc, if_neg hm, ho]
              exact hg
        | list xs =>
          have hels : ∀ x ∈ xs, ClosedVal f.store.length x := by
            cases hct with
            | list xs h => exact h
          cases xs with
          | nil =>
            exact ⟨add (add { f with visited := loc :: f.visited } ("[")) ("]"),
              by rw [visit_eq_list_nil, if_neg hm]⟩
          | cons x0 rest =>
            have hszr := sizeVs_pos rest
            have hszx := sizeV_pos x0
            have hanti1 : unvisitedWeight f.store (Loc.elem loc 0 :: loc :: f.visited) ≤
                unvisitedWeight f.store (loc :: f.visited) :=
              uw_anti _ (fun l hl => List.mem_cons_of_mem _ hl)
            have hcost1 :
                taskCost f.store (loc :: f.visited)
                  (Task.visit x0 (Loc.elem loc 0)) ≤ fuel := by
              simp only [taskCost, sizeV, sizeVs] at hcost ⊢
              omega
            obtain ⟨f3, e3⟩ := ih (add { f with visited := loc :: f.visited } ("["))
              (Task.visit x0 (Loc.elem loc 0)) hcs (hels x0 (List.mem_cons_self _ _)) hcost1
            have s3store : f3.store = f.store := by
              have h2 := visit_store_eq fuel _ _ _ e3
              exact h2
            have s3vis : (loc :: f.visited) ⊆ f3.visited := by
              have h2 := visit_visited_sub fuel _ _ _ e3
              exact h2
            have hanti2 : unvisitedWeight f.store f3.visited ≤
                unvisitedWeight f.store (loc :: f.visited) := uw_anti _ s3vis
            have hcost3 : taskCost f3.store f3.visited (Task.elems rest loc 1) ≤ fuel := by
              rw [s3store]
              simp only [taskCost, sizeV, sizeVs] at hcost ⊢
              omega
            have hcs3 : ClosedStore f3.store := by
              rw [s3store]
              exact hcs
            have hct3 : TaskClosed f3.store.length (Task.elems rest loc 1) := by
              rw [s3store]
              exact fun x hx => hels x (List.mem_cons_of_mem _ hx)
            obtain ⟨f4, e4⟩ := ih f3 (Task.elems rest loc 1) hcs3 hct3 hcost3
            refine ⟨add f4 ("]"), ?_⟩
            rw [visit_eq_list_cons, if_neg hm, e3]
            simp only [Option.some_bind]
            rw [e4]
            simp only [Option.some_bind]
    | elems xs p i =>
      cases xs with
      | nil => exact ⟨f, visit_eq_elems_nil fuel f p i⟩
      | cons x rest =>
        have hels : ∀ y ∈ x :: rest, ClosedVal f.store.length y := hct
        have hszr := sizeVs_pos rest
        have hszx := sizeV_pos x
        have hanti1 : unvisitedWeight f.store (Loc.elem p i :: f.visited) ≤
            unvisitedWeight f.store f.visited :=
          uw_anti _ (fun l hl => List.mem_cons_of_mem _ hl)
        have hcost1 :
            taskCost f.store f.visited (Task.visit x (Loc.elem p i)) ≤ fuel := by
          simp only [taskCost, sizeVs] at hcost ⊢
          omega
        obtain ⟨f2, e2⟩ := ih (add f (", ")) (Task.visit x (Loc.elem p i)) hcs
          (hels x (List.mem_cons_self _ _)) hcost1
        have s2store : f2.store = f.store := by
          have h2 := visit_store_eq fuel _ _ _ e2
          exact h2
        have s2vis : f.visited ⊆ f2.visited := by
          have h2 := visit_visited_sub fuel _ _ _ e2
          exact h2
        have hanti2 : unvisitedWeight f.store f2.visited ≤
            unvisitedWeight f.store f.visited := uw_anti _ s2vis
        have hcost2 : taskCost f2.store f2.visited (Task.elems rest p (i+1)) ≤ fuel := by
          rw [s2store]
          simp only [taskCost, sizeVs] at hcost ⊢
          omega
        have hcs2 : ClosedStore f2.store := by
          rw [s2store]
          exact hcs
        have hct2 : TaskClosed f2.store.length (Task.elems rest p (i+1)) := by
          rw [s2store]
          exact fun y hy => hels y (List.mem_cons_of_mem _ hy)
        obtain ⟨g, hg⟩ := ih f2 (Task.elems rest p (i+1)) hcs2 hct2 hcost2
        refine ⟨g, ?_⟩
        rw [visit_eq_elems_cons, e2]
        simp only [Option.some_bind]
        exact hg

theorem visit_agree (fuel : Nat) :
    ∀ (V : List Loc) (ch : List String) (t : Task) (σ τ : Store),
      (∀ b, TReach σ t b → σ[b]? = τ[b]?) →
      (visit fuel ⟨σ, V, ch⟩ t).map stView = (visit fuel ⟨τ, V, ch⟩ t).map stView := by
  induction fuel with
  | zero =>
    intro V ch t σ τ hag
    simp [visit]
  | succ fuel ih =>
    intro V ch t σ τ hag
    cases t with
    | visit x loc =>
      cases x with
      | int n =>
        rw [visit_eq_int, visit_eq_int]
        dsimp only [add]
        by_cases hm : loc ∈ V
        · rw [if_pos hm, if_pos hm]
          rfl
        · rw [if_neg hm, if_neg hm]
          rfl
      | rc a =>
        rw [visit_eq_rc, visit_eq_rc]
        dsimp only [add]
        by_cases hm : loc ∈ V
        · rw [if_pos hm, if_pos hm]
          rfl
        · rw [if_neg hm, if_neg hm]
          have hagA : σ[a]? = τ[a]? := hag a (Reaches.rcSelf a)
          cases e : σ[a]? with
          | none =>
            have e2 : τ[a]? = none := by rw [← hagA]; exact e
            rw [e2]
          | some o =>
            have e2 : τ[a]? = some o := by rw [← hagA]; exact e
            cases o with
            | none =>
              rw [e2]
              rfl
            | some v =>
              rw [e2]
              exact ih (loc :: V) ch (Task.visit v (Loc.inCell a)) σ τ
                (fun b hb => hag b (Reaches.rcThrough a b v e hb))
      | list xs =>
        cases xs with
        | nil =>
          rw [visit_eq_list_nil, visit_eq_list_nil]
          dsimp only [add]
          by_cases hm : loc ∈ V
          · rw [if_pos hm, if_pos hm]
            rfl
          · rw [if_neg hm, if_neg hm]
            rfl
        | cons x0 rest =>
          rw [visit_eq_list_cons, visit_eq_list_cons]
          dsimp only [add]
          by_cases hm : loc ∈ V
          · rw [if_pos hm, if_pos hm]
            rfl
          · rw [if_neg hm, if_neg hm]
            have h1 := ih (loc :: V) (ch ++ ["["]) (Task.visit x0 (Loc.elem loc 0)) σ τ
              (fun b hb => hag b (Reaches.listElem _ x0 b (List.mem_cons_self _ _) hb))
            cases eσ : visit fuel ⟨σ, loc :: V, ch ++ ["["]⟩
                (Task.visit x0 (Loc.elem loc 0)) with
            | none =>
              rw [eσ] at h1
              have eτ : visit fuel ⟨τ, loc :: V, ch ++ ["["]⟩
                  (Task.visit x0 (Loc.elem loc 0)) = none :=
                Option.map_eq_none'.mp h1.symm
              rw [eτ]
            | some g1 =>
              rw [eσ] at h1
              obtain ⟨g2, eτ, hview⟩ := Option.map_eq_some'.mp h1.symm
              obtain ⟨s1, v1, c1⟩ := g1
              obtain ⟨s2, v2, c2⟩ := g2
              have hs1 : s1 = σ := by
                have hh := visit_store_eq fuel _ _ _ eσ
                exact hh
              have hs2 : s2 = τ := by
                have hh := visit_store_eq fuel _ _ _ eτ
                exact hh
              have hvc : v2 = v1 ∧ c2 = c1 := by
                simp [stView] at hview
                exact hview
              rw [hs1]
              rw [hvc.1, hvc.2, hs2] at eτ
              rw [eτ]
              simp only [Option.some_bind]
              have h2 := ih v1 c1 (Task.elems rest loc 1) σ τ
                (fun b hb => by
                  obtain ⟨y, hy, hr⟩ := hb
                  exact hag b (Reaches.listElem _ y b (List.mem_cons_of_mem _ hy) hr))
              cases e4σ : visit fuel ⟨σ, v1, c1⟩ (Task.elems rest loc 1) with
              | none =>
                rw [e4σ] at h2
                have e4τ : visit fuel ⟨τ, v1, c1⟩ (Task.elems rest loc 1) = none :=
                  Option.map_eq_none'.mp h2.symm
                rw [e4τ]
              | some g4 =>
                rw [e4σ] at h2
                obtain ⟨g5, e4τ, hview4⟩ := Option.map_eq_some'.mp h2.symm
                obtain ⟨s4, v4, c4⟩ := g4
                obtain ⟨s5, v5, c5⟩ := g5
                have hs4 : s4 = σ := by
                  have hh := visit_store_eq fuel _ _ _ e4σ
                  exact hh
                have hs5 : s5 = τ := by
                  have hh := visit_store_eq fuel _ _ _ e4τ
                  exact hh
                have hvc4 : v5 = v4 ∧ c5 = c4 := by
                  simp [stView] at hview4
                  exact hview4
                rw [hs4]
                rw [hvc4.1, hvc4.2, hs5] at e4τ
                rw [e4τ]
                simp [stView, add]
    | elems xs p i =>
      cases xs with
      | nil =>
        rw [visit_eq_elems_nil, visit_eq_elems_nil]
        simp [stView]
      | cons x rest =>
        rw [visit_eq_elems_cons, visit_eq_elems_cons]
        dsimp only [add]
        have h1 := ih V (ch ++ [", "]) (Task.visit x (Loc.elem p i)) σ τ
          (fun b hb => hag b ⟨x, List.mem_cons_self _ _, hb⟩)
        cases eσ : visit fuel ⟨σ, V, ch ++ [", "]⟩ (Task.visit x (Loc.elem p i)) with
        | none =>
          rw [eσ] at h1
          have eτ : visit fuel ⟨τ, V, ch ++ [", "]⟩ (Task.visit x (Loc.elem p i)) = none :=
            Option.map_eq_none'.mp h1.symm
          rw [eτ]
        | some g1 =>
          rw [eσ] at h1
          obtain ⟨g2, eτ, hview⟩ := Option.map_eq_some'.mp h1.symm
          obtain ⟨s1, v1, c1⟩ := g1
          obtain ⟨s2, v2, c2⟩ := g2
          have hs1 : s1 = σ := by
            have hh := visit_store_eq fuel _ _ _ eσ
            exact hh
          have hs2 : s2 = τ := by
            have hh := visit_store_eq fuel _ _ _ eτ
            exact hh
          have hvc : v2 = v1 ∧ c2 = c1 := by
            simp [stView] at hview
            exact hview
          rw [hs1]
          rw [hvc.1, hvc.2, hs2] at eτ
          rw [eτ]
          simp only [Option.some_bind]
          exact ih v1 c1 (Task.elems rest p (i+1)) σ τ
            (fun b hb => by
              obtain ⟨y, hy, hr⟩ := hb
              exact hag b ⟨y, List.mem_cons_of_mem _ hy, hr⟩)

theorem taskCost_root_le (σ : Store) (x : Value) :
    taskCost σ [] (Task.visit x Loc.root) ≤ fmtFuel σ x := by
  have h := uw_le_wAll σ [Loc.root]
  simp only [taskCost, fmtFuel]
  omega

/-- C1 counterexample.  The spec claims identity is handle identity, so
that the second clone of an uninitialized cell placed in a list should
already be in the visited set and render as the back-reference token,
giving the string in quotes below on the right.  The code keys the visited
set on the address of each `Value` struct: the two clones are distinct
structs, so the second clone is entered again and renders `uninit` a
second time. -/
theorem C1_counterexample :
    format [none] (Value.list [Value.rc 0, Value.rc 0]) =
      some ("[uninit, uninit]", [none]) ∧
    "[uninit, uninit]" ≠ "[uninit, *]" :=
  ⟨rfl, by decide⟩

/-- C1 (amended): whenever traversal reaches a node whose per-occurrence
address (traversal location) is already in the visited set, the formatter
appends the back-reference token and returns with the state otherwise
unchanged — it does not recurse into the node.  Identity is the address of
the `Value` struct, not handle identity: clones of one Cell occupy
distinct addresses and are each entered, while the Cell's shared contents
occupies a single address, so re-entry through any clone is collapsed at
the contents. -/
theorem C1_amended (fuel : Nat) (f : ValueFormatter) (x : Value) (loc : Loc)
    (hf : 0 < fuel) (hm : loc ∈ f.visited) :
    visit fuel f (Task.visit x loc) = some (add f ("*")) :=
  visit_mem fuel f x loc hf hm

/-- Witness for C1 (amended) at a concrete state whose visited set already
holds the current location. -/
theorem C1_amended_witness :
    0 < 1 ∧ Loc.root ∈ [Loc.root] ∧
    visit 1 ⟨[], [Loc.root], []⟩ (Task.visit (Value.int 5) Loc.root) =
      some (add ⟨[], [Loc.root], []⟩ ("*")) :=
  ⟨Nat.one_pos, by decide,
    C1_amended 1 ⟨[], [Loc.root], []⟩ (Value.int 5) Loc.root Nat.one_pos (by decide)⟩

/-- C2: the demonstration driver.  With `x = rc()` (cell 0), `format(&x)`
is `uninit` before `resolve`; after `x.resolve(y)` where `y` is the list
`[1, 2, 3, x.clone(), x.clone(), x.clone()]`, `format(&x)` is
`[1, 2, 3, *, *, *]`. -/
theorem C2_demo_cycle :
    format [none] (Value.rc 0) = some ("uninit", [none]) ∧
    resolve (Value.rc 0)
      (Value.list [Value.int 1, Value.int 2, Value.int 3,
        Value.rc 0, Value.rc 0, Value.rc 0]) [none] =
      some [some (Value.list [Value.int 1, Value.int 2, Value.int 3,
        Value.rc 0, Value.rc 0, Value.rc 0])] ∧
    format [some (Value.list [Value.int 1, Value.int 2, Value.int 3,
        Value.rc 0, Value.rc 0, Value.rc 0])] (Value.rc 0) =
      some ("[1, 2, 3, *, *, *]",
        [some (Value.list [Value.int 1, Value.int 2, Value.int 3,
          Value.rc 0, Value.rc 0, Value.rc 0])]) :=
  ⟨rfl, rfl, rfl⟩

/-- C3: `format` terminates and returns a string (no fatal error) on every
finite `Value` graph, cyclic or not; closedness says every handle points
at a live cell, which holds for every graph the source can construct.  The
proof is `visit_total`: each pass past the visited-set check inserts
exactly one new location, so the fuel `fmtFuel` (total weight of the graph)
bounds the recursion.  The store comes back unchanged. -/
theorem C3_format_total (σ : Store) (x : Value)
    (hcs : ClosedStore σ) (hcv : ClosedVal σ.length x) :
    ∃ s, format σ x = some (s, σ) := by
  obtain ⟨g, hg⟩ := visit_total (fmtFuel σ x) ⟨σ, [], []⟩ (Task.visit x Loc.root)
    hcs hcv (taskCost_root_le σ x)
  have hst : g.store = σ := by
    have hh := visit_store_eq _ _ _ _ hg
    exact hh
  refine ⟨string g, ?_⟩
  unfold format
  rw [hg]
  simp [hst]

/-- Witness for C3 on the cyclic demo graph. -/
theorem C3_format_total_witness :
    ClosedStore [some (Value.list [Value.int 1, Value.int 2, Value.int 3,
      Value.rc 0, Value.rc 0, Value.rc 0])] ∧
    ClosedVal 1 (Value.rc 0) ∧
    ∃ s, format [some (Value.list [Value.int 1, Value.int 2, Value.int 3,
      Value.rc 0, Value.rc 0, Value.rc 0])] (Value.rc 0) =
        some (s, [some (Value.list [Value.int 1, Value.int 2, Value.int 3,
          Value.rc 0, Value.rc 0, Value.rc 0])]) := by
  have hcs : ClosedStore [some (Value.list [Value.int 1, Value.int 2, Value.int 3,
      Value.rc 0, Value.rc 0, Value.rc 0])] := by
    intro a v h
    cases a with
    | zero =>
      simp only [List.getElem?_cons_zero, Option.some.injEq] at h
      subst h
      refine ClosedVal.list _ ?_
      intro x hx
      simp only [List.mem_cons, List.not_mem_nil, or_false] at hx
      rcases hx with rfl | rfl | rfl | rfl | rfl | rfl
      · exact ClosedVal.int _
      · exact ClosedVal.int _
      · exact ClosedVal.int _
      · exact ClosedVal.rc 0 (by decide)
      · exact ClosedVal.rc 0 (by decide)
      · exact ClosedVal.rc 0 (by decide)
    | succ a => simp at h
  exact ⟨hcs, ClosedVal.rc 0 (by decide),
    C3_format_total _ _ hcs (ClosedVal.rc 0 (by decide))⟩

/-- C4: a cell resolved to `int 5`, with two clones of the handle as the
two elements of a list, formats as in the statement: the first occurrence
renders its contents fully and the second collapses to the back-reference
token. -/
theorem C4_shared_cell :
    resolve (Value.rc 0) (Value.int 5) [none] = some [some (Value.int 5)] ∧
    format [some (Value.int 5)] (Value.list [Value.rc 0, Value.rc 0]) =
      some ("[5, *]", [some (Value.int 5)]) :=
  ⟨rfl, rfl⟩

/-- C5: `resolve` on a non-cell value (`Int` or `List`) fails fatally (the
source panics, modelled as `none`); because the panic aborts before any
write, no store is produced and nothing is mutated. -/
theorem C5_resolve_non_cell (n : Int) (xs : List Value) (v : Value) (σ : Store) :
    resolve (Value.int n) v σ = none ∧ resolve (Value.list xs) v σ = none :=
  ⟨rfl, rfl⟩

/-- C6: `resolve` on a cell handle stores the value as the cell's
contents, overwriting whatever was there (no hypothesis on the prior
contents), and leaves every other cell unchanged. -/
theorem C6_resolve_overwrites (σ : Store) (a : Nat) (v : Value) (ha : a < σ.length) :
    resolve (Value.rc a) v σ = some (σ.set a (some v)) ∧
    (σ.set a (some v))[a]? = some (some v) ∧
    ∀ b, b ≠ a → (σ.set a (some v))[b]? = σ[b]? := by
  refine ⟨rfl, ?_, ?_⟩
  · exact List.getElem?_set_self ha
  · intro b hb
    exact List.getElem?_set_ne (Ne.symm hb)

/-- Witness for C6: rebinding a cell that already holds `int 9` to `int 5`
silently replaces the old value. -/
theorem C6_resolve_overwrites_witness :
    0 < ([some (Value.int 9)] : Store).length ∧
    (resolve (Value.rc 0) (Value.int 5) [some (Value.int 9)] =
        some (([some (Value.int 9)] : Store).set 0 (some (Value.int 5))) ∧
      (([some (Value.int 9)] : Store).set 0 (some (Value.int 5)))[0]? =
        some (some (Value.int 5)) ∧
      ∀ b, b ≠ 0 →
        (([some (Value.int 9)] : Store).set 0 (some (Value.int 5)))[b]? =
          ([some (Value.int 9)] : Store)[b]?) :=
  ⟨by decide, C6_resolve_overwrites [some (Value.int 9)] 0 (Value.int 5) (by decide)⟩

/-- C7: `format` is read-only with respect to the graph — the store it
returns is the store it was given — and since its visited set and output
buffer are created fresh inside the call (see `format`), a second call on
the unmodified graph returns the identical string. -/
theorem C7_format_pure (σ : Store) (x : Value) (s : String) (σ2 : Store)
    (h : format σ x = some (s, σ2)) :
    σ2 = σ ∧ format σ2 x = some (s, σ2) := by
  unfold format at h
  cases e : visit (fmtFuel σ x) ⟨σ, [], []⟩ (Task.visit x Loc.root) with
  | none =>
    rw [e] at h
    simp at h
  | some g =>
    rw [e] at h
    simp only [Option.map_some'] at h
    have hh : string g = s ∧ g.store = σ2 := by
      simp [Prod.ext_iff] at h
      exact h
    have hst : g.store = σ := by
      have h2 := visit_store_eq _ _ _ _ e
      exact h2
    have hσ2 : σ2 = σ := by rw [← hh.2, hst]
    refine ⟨hσ2, ?_⟩
    rw [hσ2]
    unfold format
    rw [e]
    simp [hh.1, hst]

/-- Witness for C7 on the uninitialized cell. -/
theorem C7_format_pure_witness :
    format [none] (Value.rc 0) = some ("uninit", [none]) ∧
    (([none] : Store) = [none] ∧
      format [none] (Value.rc 0) = some ("uninit", [none])) :=
  ⟨rfl, C7_format_pure [none] (Value.rc 0) ("uninit") [none] rfl⟩

/-- C8: base renderings — decimal integers including negatives, the empty
list, and comma-space separated elements inside square brackets. -/
theorem C8_base_renderings :
    format [] (Value.int 42) = some ("42", ([] : Store)) ∧
    format [] (Value.int (-7)) = some ("-7", ([] : Store)) ∧
    format [] (Value.list []) = some ("[]", ([] : Store)) ∧
    format [] (Value.list [Value.int 1, Value.int 2, Value.int 3]) =
      some ("[1, 2, 3]", ([] : Store)) :=
  ⟨rfl, rfl, rfl, rfl⟩

/-- C9: a cell resolved to a clone of itself formats as exactly the bare
back-reference token. -/
theorem C9_self_cycle :
    resolve (Value.rc 0) (Value.rc 0) [none] = some [some (Value.rc 0)] ∧
    format [some (Value.rc 0)] (Value.rc 0) = some ("*", [some (Value.rc 0)]) :=
  ⟨rfl, rfl⟩

/-- C10: frame property of `resolve`.  Resolving cell `a` mutates only
that cell's storage: any value `y` that cannot reach cell `a` formats to
the same string before and after the call. -/
theorem C10_resolve_frame (σ : Store) (a : Nat) (v y : Value)
    (hcs : ClosedStore σ) (hy : ClosedVal σ.length y) (hv : ClosedVal σ.length v)
    (ha : a < σ.length) (hna : ¬ Reaches σ y a) :
    resolve (Value.rc a) v σ = some (σ.set a (some v)) ∧
    ∃ s, format σ y = some (s, σ) ∧
      format (σ.set a (some v)) y = some (s, σ.set a (some v)) := by
  refine ⟨rfl, ?_⟩
  have hlen : (σ.set a (some v)).length = σ.length := by simp
  have hcs2 : ClosedStore (σ.set a (some v)) := by
    intro b w hw
    rw [hlen]
    by_cases hba : b = a
    · subst hba
      rw [List.getElem?_set_self ha] at hw
      simp only [Option.some.injEq] at hw
      subst hw
      exact hv
    · rw [List.getElem?_set_ne (Ne.symm hba)] at hw
      exact hcs b w hw
  have hy2 : ClosedVal (σ.set a (some v)).length y := by
    rw [hlen]
    exact hy
  obtain ⟨g1, e1⟩ := visit_total (fmtFuel σ y) ⟨σ, [], []⟩ (Task.visit y Loc.root)
    hcs hy (taskCost_root_le σ y)
  obtain ⟨g2, e2⟩ := visit_total (fmtFuel (σ.set a (some v)) y)
    ⟨σ.set a (some v), [], []⟩ (Task.visit y Loc.root) hcs2 hy2
    (taskCost_root_le _ y)
  have e1b := visit_fuel_le (fmtFuel σ y)
    (max (fmtFuel σ y) (fmtFuel (σ.set a (some v)) y)) (le_max_left _ _) _ _ _ e1
  have e2b := visit_fuel_le (fmtFuel (σ.set a (some v)) y)
    (max (fmtFuel σ y) (fmtFuel (σ.set a (some v)) y)) (le_max_right _ _) _ _ _ e2
  have hag : ∀ b, TReach σ (Task.visit y Loc.root) b →
      σ[b]? = (σ.set a (some v))[b]? := by
    intro b hb
    have hbna : b ≠ a := by
      intro hba
      exact hna (hba ▸ hb)
    exact (List.getElem?_set_ne (Ne.symm hbna)).symm
  have hagree := visit_agree (max (fmtFuel σ y) (fmtFuel (σ.set a (some v)) y)) [] []
    (Task.visit y Loc.root) σ (σ.set a (some v)) hag
  rw [e1b, e2b] at hagree
  have hvc : g1.visited = g2.visited ∧ g1.chunks = g2.chunks := by
    simp [stView, Prod.ext_iff] at hagree
    exact hagree
  have hst1 : g1.store = σ := by
    have hh := visit_store_eq _ _ _ _ e1
    exact hh
  have hst2 : g2.store = σ.set a (some v) := by
    have hh := visit_store_eq _ _ _ _ e2
    exact hh
  refine ⟨string g1, ?_, ?_⟩
  · unfold format
    rw [e1]
    simp [hst1]
  · unfold format
    rw [e2]
    simp [hst2, string, hvc.2]

/-- Witness for C10: resolving cell 0 does not change how a handle to the
unrelated cell 1 formats. -/
theorem C10_resolve_frame_witness :
    (¬ Reaches [none, none] (Value.rc 1) 0) ∧
    (resolve (Value.rc 0) (Value.int 7) [none, none] =
        some (([none, none] : Store).set 0 (some (Value.int 7))) ∧
      ∃ s, format [none, none] (Value.rc 1) = some (s, ([none, none] : Store)) ∧
        format (([none, none] : Store).set 0 (some (Value.int 7))) (Value.rc 1) =
          some (s, ([none, none] : Store).set 0 (some (Value.int 7)))) := by
  have hcs : ClosedStore [none, none] := by
    intro b w hw
    cases b with
    | zero => simp at hw
    | succ b =>
      cases b with
      | zero => simp at hw
      | succ b => simp at hw
  have hna : ¬ Reaches [none, none] (Value.rc 1) 0 := by
    intro h
    cases h with
    | rcThrough a b w hw hr => simp at hw
  exact ⟨hna, C10_resolve_frame [none, none] 0 (Value.int 7) (Value.rc 1) hcs
    (ClosedVal.rc 1 (by decide)) (ClosedVal.int 7) (by decide) hna⟩

end CycleDemo
